import Mathlib

/-!
# Verification of the rove migration reconciler

Shallow embedding of the migration commands of the `rove` PostgreSQL
migration tool (`src/commands/up.ts`, the `down` function of
`src/commands/create.ts`, and `src/commands/status.ts`), together with
proofs about the reconciliation behaviour described in the specification.

The database is modelled as an explicit state (`DBState`) holding the
`migrations` ledger table and an abstract schema trace; a `Session` adds
the transaction status of one connection.  Every `client.query(...)` call
of the source is modelled as one `Query` value interpreted by `runQuery`,
and each command is a pure function from environment, disk and database
state to a `RunResult` that records the final committed database, the
process outcome, the ordered list of queries issued and the warnings
logged.  Success or failure of a raw user-authored SQL script is an
oracle parameter `scriptOk : String → Bool`.
-/

namespace Rove

/-! ## Data model -/

/-- One row of the `migrations` ledger table: `name TEXT NOT NULL UNIQUE`,
`run_on TIMESTAMP NOT NULL DEFAULT NOW()` (timestamps modelled as `Nat`). -/
structure LedgerEntry where
  name : String
  run_on : Nat
deriving Repr, DecidableEq

/-- Committed database state: whether the `migrations` table exists, its
rows, and an abstract schema trace listing the raw migration scripts whose
effects are (committedly) part of the schema, in execution order. -/
structure DBState where
  migTable : Bool
  ledger : List LedgerEntry
  schema : List String
deriving Repr, DecidableEq

/-- One connection's session: the committed database plus, when a
transaction is open, the transaction's working state (visible to the
session, not yet committed). -/
structure Session where
  committed : DBState
  tx : Option DBState
deriving Repr, DecidableEq

/-- The state the session currently reads and writes: the open
transaction's working state if one is open, else the committed state. -/
def curState (s : Session) : DBState :=
  s.tx.getD s.committed

/-- Write `d` as the session's current state: into the open transaction
when one is open, else directly to committed state. -/
def setCur (s : Session) (d : DBState) : Session :=
  match s.tx with
  | some _ => { s with tx := some d }
  | none => { s with committed := d }

/-- A migration directory on disk: its name and the contents of its
`up.sql` / `down.sql` files (`none` = the file is absent or unreadable). -/
structure MigrationDir where
  name : String
  up_sql : Option String
  down_sql : Option String
deriving Repr, DecidableEq

/-- The file system as the commands see it: `migrationsDir` is `none` when
the `migrations` root directory does not exist, else the list of its
immediate subdirectories (in raw `readdir` order, unsorted). -/
structure Disk where
  migrationsDir : Option (List MigrationDir)
deriving Repr, DecidableEq

/-- Process environment: the two accepted connection-string variables. -/
structure Env where
  DATABASE_URL : Option String
  POSTGRES_URL : Option String
deriving Repr, DecidableEq

/-- Reads `process.env.DATABASE_URL ?? process.env.POSTGRES_URL`. -/
def envUrl (e : Env) : Option String :=
  e.DATABASE_URL.orElse fun _ => e.POSTGRES_URL

/-! ## Queries and their interpretation -/

/-- The SQL statements the three commands issue through `client.query`. -/
inductive Query where
  /-- The statement `BEGIN`. -/
  | beginTx
  /-- The statement `COMMIT`. -/
  | commitTx
  /-- The statement `ROLLBACK`. -/
  | rollbackTx
  /-- The statement `CREATE TABLE IF NOT EXISTS migrations (...)`. -/
  | createMigrationsTable
  /-- The statement `SELECT name FROM migrations`. -/
  | selectNames
  /-- The statement `SELECT name, run_on FROM migrations ORDER BY run_on ASC`. -/
  | selectNamesRunOn
  /-- The statement `SELECT name FROM migrations ORDER BY run_on DESC LIMIT 1`. -/
  | selectLast
  /-- The statement `INSERT INTO migrations (name) VALUES ($1)`. -/
  | insertName (name : String)
  /-- The statement `DELETE FROM migrations WHERE name = $1`. -/
  | deleteName (name : String)
  /-- the raw text of a user-authored migration script -/
  | rawScript (body : String)
deriving Repr, DecidableEq

/-- Result of one query: success (with returned rows; `[]` for statements
that return none) or a database error, which the commands' `catch` blocks
react to. -/
inductive QueryResult where
  | rows (rs : List LedgerEntry)
  | error
deriving Repr, DecidableEq

/-- The names present in a ledger, in row order. -/
def ledgerNames (l : List LedgerEntry) : List String :=
  l.map (·.name)

/-- Selection by `ORDER BY run_on DESC LIMIT 1`: an entry whose `run_on` is maximal
(ties resolved to the earlier row; the SQL leaves ties unspecified). -/
def lastApplied : List LedgerEntry → Option LedgerEntry
  | [] => none
  | e :: es =>
    match lastApplied es with
    | none => some e
    | some m => if m.run_on ≤ e.run_on then some e else some m

/-- Interpret one query against a session.  `scriptOk` is the oracle for
raw migration scripts; `clock` is the transaction timestamp `NOW()` used
by the ledger-insert default. -/
def runQuery (scriptOk : String → Bool) (clock : Nat) (q : Query) (s : Session) :
    Session × QueryResult :=
  match q with
  | .beginTx =>
    match s.tx with
    | some _ => (s, .rows [])
    | none => ({ s with tx := some s.committed }, .rows [])
  | .commitTx => (⟨curState s, none⟩, .rows [])
  | .rollbackTx => ({ s with tx := none }, .rows [])
  | .createMigrationsTable => (setCur s { curState s with migTable := true }, .rows [])
  | .selectNames =>
    if (curState s).migTable then (s, .rows (curState s).ledger) else (s, .error)
  | .selectNamesRunOn =>
    if (curState s).migTable then (s, .rows (curState s).ledger) else (s, .error)
  | .selectLast =>
    if (curState s).migTable then
      (s, .rows ((lastApplied (curState s).ledger).toList))
    else (s, .error)
  | .insertName n =>
    if (ledgerNames (curState s).ledger).contains n then (s, .error)
    else (setCur s { curState s with ledger := (curState s).ledger ++ [⟨n, clock⟩] }, .rows [])
  | .deleteName n =>
    (setCur s { curState s with ledger := (curState s).ledger.filter (·.name ≠ n) }, .rows [])
  | .rawScript body =>
    if scriptOk body then
      (setCur s { curState s with schema := (curState s).schema ++ [body] }, .rows [])
    else (s, .error)

/-! ## The reader's sort: JavaScript `localeCompare`

The source sorts directory names with `.sort((a, b) => a.localeCompare(b))`.
`localeCompare` is the locale-aware Unicode collation, not plain code-point
comparison.  We model its default (root/English) collation restricted to
ASCII names: at the primary level, underscore precedes digits, digits
precede letters, and letters compare case-insensitively; a case (tertiary)
level with lowercase before uppercase breaks primary ties.  Characters
outside this repertoire are given primary weights above the modelled range
in code-point order. -/

/-- Primary collation weight of a character (root collation, ASCII). -/
def primaryWeight (c : Char) : Nat :=
  if c = '_' then 1
  else if c.isDigit then 16 + c.toNat
  else if c.isAlpha then 256 + c.toLower.toNat
  else 1024 + c.toNat

/-- Case (tertiary) weight: lowercase sorts before uppercase. -/
def caseWeight (c : Char) : Nat :=
  if c.isUpper then 1 else 0

/-- Strict lexicographic order on weight lists. -/
def lexLtNat : List Nat → List Nat → Bool
  | [], [] => false
  | [], _ :: _ => true
  | _ :: _, [] => false
  | a :: as, b :: bs => a < b || (a = b && lexLtNat as bs)

/-- The primary collation key of a string. -/
def primaryKey (s : String) : List Nat :=
  s.data.map primaryWeight

/-- The case collation key of a string. -/
def caseKey (s : String) : List Nat :=
  s.data.map caseWeight

/-- Tells whether `a` strictly precedes `b` in the modelled collation: primary level
first, then the case level. -/
def collLt (a b : String) : Bool :=
  lexLtNat (primaryKey a) (primaryKey b) ||
    (primaryKey a = primaryKey b && lexLtNat (caseKey a) (caseKey b))

/-- The source's `a.localeCompare(b)`, as a sign. -/
def localeCompare (a b : String) : Int :=
  if collLt a b then -1 else if collLt b a then 1 else 0

/-- The comparator order induced by `localeCompare`:
`a.localeCompare(b) <= 0`. -/
def localeLe (a b : String) : Prop :=
  localeCompare a b ≤ 0

instance : DecidableRel localeLe := fun a b => by
  unfold localeLe; infer_instance

/-- Models `entries.filter(isDirectory).map(name).sort((a,b) => a.localeCompare(b))`:
the migration store reader's listing, sorted ascending by `localeCompare`
(modelled with a stable insertion sort, as `Array.prototype.sort` is
stable). -/
def listMigrations (dirs : List MigrationDir) : List String :=
  (dirs.map (·.name)).insertionSort localeLe

/-- Look up a directory entry by name (the commands address files by
`migrations/<name>/...`). -/
def findDir (dirs : List MigrationDir) (n : String) : Option MigrationDir :=
  dirs.find? (·.name = n)

/-- Contents of `migrations/<n>/up.sql`, when readable. -/
def readUpSql (dirs : List MigrationDir) (n : String) : Option String :=
  (findDir dirs n).bind (·.up_sql)

/-- Contents of `migrations/<n>/down.sql`, when readable. -/
def readDownSql (dirs : List MigrationDir) (n : String) : Option String :=
  (findDir dirs n).bind (·.down_sql)

/-- JavaScript's `String.prototype.trim` (used by the source as
`readFile(...).trim()`): strip leading and trailing whitespace.  Defined
structurally over the character list so that it evaluates. -/
def isJsWhitespace (c : Char) : Bool :=
  c = ' ' || c = '\t' || c = '\n' || c = '\r' || c = '\x0b' || c = '\x0c'

/-- See `isJsWhitespace`. -/
def jsTrim (s : String) : String :=
  ⟨((s.data.dropWhile isJsWhitespace).reverse.dropWhile isJsWhitespace).reverse⟩

/-! ## The commands -/

/-- How the process run ends: the command function returns normally
(process exits 0), or `process.exit(code)` is called. -/
inductive Outcome where
  | finished
  | exited (code : Nat)
deriving Repr, DecidableEq

/-- Running context of one command: the connection session, the queries
issued so far (in order) and the warnings logged so far. -/
structure Ctx where
  session : Session
  queries : List Query
  warnings : List String
deriving Repr, DecidableEq

/-- Models `client.query(q)`: run the query, record it in the trace. -/
def issue (sk : String → Bool) (ck : Nat) (q : Query) (c : Ctx) : Ctx × QueryResult :=
  let (s, r) := runQuery sk ck q c.session
  ({ c with session := s, queries := c.queries ++ [q] }, r)

/-- Models `console.warn(msg)`. -/
def warn (msg : String) (c : Ctx) : Ctx :=
  { c with warnings := c.warnings ++ [msg] }

/-- Observable result of one command invocation: the committed database
after the connection closes (an open transaction is implicitly rolled
back when the connection drops), the process outcome, the query trace and
the warnings. -/
structure RunResult where
  db : DBState
  outcome : Outcome
  queries : List Query
  warnings : List String
deriving Repr, DecidableEq

/-- The warning logged by `up` for a directory without `up.sql`. -/
def noUpSqlWarning (n : String) : String :=
  "Skipping " ++ n ++ ": no up.sql found"

/-- The warning logged by `down` for a migration without `down.sql`. -/
def noDownSqlWarning (n : String) : String :=
  "Skipping " ++ n ++ ": no down.sql found"

/-- Step 7 of `up`: `for (const name of allMigs) { ... }`.  For each name,
skip it when already applied; otherwise read `migrations/<name>/up.sql`
(missing file: warn and continue), execute its trimmed body, and insert
the ledger row.  Returns the context plus `false` when a query failed (the
caller's `catch` then rolls back and exits). -/
def applyLoop (sk : String → Bool) (ck : Nat) (dirs : List MigrationDir)
    (applied : List String) : List String → Ctx → Ctx × Bool
  | [], c => (c, true)
  | n :: rest, c =>
    if applied.contains n then
      applyLoop sk ck dirs applied rest c
    else
      match readUpSql dirs n with
      | none => applyLoop sk ck dirs applied rest (warn (noUpSqlWarning n) c)
      | some raw =>
        let (c, r) := issue sk ck (.rawScript (jsTrim raw)) c
        match r with
        | .error => (c, false)
        | .rows _ =>
          let (c, r) := issue sk ck (.insertName n) c
          match r with
          | .error => (c, false)
          | .rows _ => applyLoop sk ck dirs applied rest c

/-- Models `src/commands/up.ts`: apply all pending migrations inside one
transaction. -/
def up (sk : String → Bool) (ck : Nat) (env : Env) (disk : Disk) (db : DBState) :
    RunResult :=
  -- 1) missing DATABASE_URL / POSTGRES_URL: exit 1 before any connection
  match envUrl env with
  | none => ⟨db, .exited 1, [], []⟩
  | some _ =>
    let c0 : Ctx := ⟨⟨db, none⟩, [], []⟩
    -- 3) BEGIN; 4) CREATE TABLE IF NOT EXISTS migrations
    let (c, _) := issue sk ck .beginTx c0
    let (c, _) := issue sk ck .createMigrationsTable c
    -- 5) SELECT name FROM migrations
    let (c, r) := issue sk ck .selectNames c
    match r with
    | .error =>
      let (c, _) := issue sk ck .rollbackTx c
      ⟨c.session.committed, .exited 1, c.queries, c.warnings⟩
    | .rows appliedRows =>
      let applied := appliedRows.map (·.name)
      -- 6) readdir("migrations"): failure logs and calls process.exit(1)
      -- with the transaction still open; dropping the connection rolls it
      -- back implicitly, so only the committed state survives
      match disk.migrationsDir with
      | none => ⟨c.session.committed, .exited 1, c.queries, c.warnings⟩
      | some dirs =>
        let allMigs := listMigrations dirs
        -- 7) apply each pending migration
        let (c, completed) := applyLoop sk ck dirs applied allMigs c
        if completed then
          -- 8) COMMIT
          let (c, _) := issue sk ck .commitTx c
          ⟨c.session.committed, .finished, c.queries, c.warnings⟩
        else
          let (c, _) := issue sk ck .rollbackTx c
          ⟨c.session.committed, .exited 1, c.queries, c.warnings⟩

/-- The `down` function of `src/commands/create.ts`: revert the most
recently applied migration. -/
def down (sk : String → Bool) (ck : Nat) (env : Env) (disk : Disk) (db : DBState) :
    RunResult :=
  match envUrl env with
  | none => ⟨db, .exited 1, [], []⟩
  | some _ =>
    let c0 : Ctx := ⟨⟨db, none⟩, [], []⟩
    -- 3) SELECT name FROM migrations ORDER BY run_on DESC LIMIT 1
    let (c, r) := issue sk ck .selectLast c0
    match r with
    | .error =>
      let (c, _) := issue sk ck .rollbackTx c
      ⟨c.session.committed, .exited 1, c.queries, c.warnings⟩
    | .rows [] => ⟨c.session.committed, .finished, c.queries, c.warnings⟩
    | .rows (e :: _) =>
      let lastName := e.name
      -- 4) read migrations/<lastName>/down.sql, trimmed; a failed read
      -- (missing root, directory or file) logs a warning
      let script : Option String :=
        (readDownSql (disk.migrationsDir.getD []) lastName).map jsTrim
      let c := if script.isSome then c else warn (noDownSqlWarning lastName) c
      -- 5) BEGIN; run the script when truthy (non-null, non-empty);
      -- DELETE the ledger row; COMMIT
      let (c, _) := issue sk ck .beginTx c
      match script with
      | some s =>
        if s = "" then
          let (c, _) := issue sk ck (.deleteName lastName) c
          let (c, _) := issue sk ck .commitTx c
          ⟨c.session.committed, .finished, c.queries, c.warnings⟩
        else
          let (c, r) := issue sk ck (.rawScript s) c
          match r with
          | .error =>
            let (c, _) := issue sk ck .rollbackTx c
            ⟨c.session.committed, .exited 1, c.queries, c.warnings⟩
          | .rows _ =>
            let (c, _) := issue sk ck (.deleteName lastName) c
            let (c, _) := issue sk ck .commitTx c
            ⟨c.session.committed, .finished, c.queries, c.warnings⟩
      | none =>
        let (c, _) := issue sk ck (.deleteName lastName) c
        let (c, _) := issue sk ck .commitTx c
        ⟨c.session.committed, .finished, c.queries, c.warnings⟩

/-- Options of the `status` command. -/
structure StatusOptions where
  exitCode : Bool
  quiet : Bool
deriving Repr, DecidableEq

/-- Models `src/commands/status.ts`: report applied/pending state. -/
def status (sk : String → Bool) (ck : Nat) (opts : StatusOptions) (env : Env)
    (disk : Disk) (db : DBState) : RunResult :=
  match envUrl env with
  | none => ⟨db, .exited 1, [], []⟩
  | some _ =>
    -- 2) the migrations directory is checked before any connection opens
    match disk.migrationsDir with
    | none => ⟨db, .exited 1, [], []⟩
    | some dirs =>
      let c0 : Ctx := ⟨⟨db, none⟩, [], []⟩
      -- 4) SELECT name, run_on FROM migrations ORDER BY run_on ASC
      let (c, r) := issue sk ck .selectNamesRunOn c0
      match r with
      | .error => ⟨c.session.committed, .exited 1, c.queries, c.warnings⟩
      | .rows appliedRows =>
        let appliedNames := appliedRows.map (·.name)
        -- 5) discover and sort the migration folders
        let allMigs := listMigrations dirs
        let pending := allMigs.filter (fun n => !appliedNames.contains n)
        -- 6) printing only; 7) exit 1 when requested and something pends
        if opts.exitCode && pending.length > 0 then
          ⟨c.session.committed, .exited 1, c.queries, c.warnings⟩
        else
          ⟨c.session.committed, .finished, c.queries, c.warnings⟩

/-- Modelled from the spec's words ("sorted ascending by text comparison",
"lexicographic sort of directory names"): plain code-point comparison of
the names as text, to be compared with the reader's `localeCompare`
sort. -/
def textLe (a b : String) : Prop :=
  lexLtNat (a.data.map Char.toNat) (b.data.map Char.toNat) = true ∨ a = b

instance : DecidableRel textLe := fun a b => by
  unfold textLe; infer_instance

/-- See `textLe`: the lexicographic sort of the names as text. -/
def specTextSort (names : List String) : List String :=
  names.insertionSort textLe

/-! ## Order lemmas for the collation model -/

theorem lexLtNat_asymm : ∀ x y : List Nat, lexLtNat x y = true → lexLtNat y x = false := by
  intro x
  induction x with
  | nil =>
    intro y h
    cases y with
    | nil => simp [lexLtNat] at h
    | cons b bs => simp [lexLtNat]
  | cons a as ih =>
    intro y h
    cases y with
    | nil => simp [lexLtNat] at h
    | cons b bs =>
      simp only [lexLtNat, Bool.or_eq_true, Bool.and_eq_true, decide_eq_true_eq] at h
      simp only [lexLtNat, Bool.or_eq_false_iff, Bool.and_eq_false_iff,
        decide_eq_false_iff_not]
      rcases h with h | ⟨rfl, h⟩
      · exact ⟨by omega, Or.inl (by omega)⟩
      · exact ⟨by omega, Or.inr (ih bs h)⟩

theorem lexLtNat_irrefl (x : List Nat) : lexLtNat x x = false := by
  cases h : lexLtNat x x with
  | false => rfl
  | true => have := lexLtNat_asymm x x h; simp [h] at this

theorem lexLtNat_trans : ∀ x y z : List Nat,
    lexLtNat x y = true → lexLtNat y z = true → lexLtNat x z = true := by
  intro x
  induction x with
  | nil =>
    intro y z h₁ h₂
    cases y with
    | nil => simp [lexLtNat] at h₁
    | cons b bs =>
      cases z with
      | nil => simp [lexLtNat] at h₂
      | cons c cs => simp [lexLtNat]
  | cons a as ih =>
    intro y z h₁ h₂
    cases y with
    | nil => simp [lexLtNat] at h₁
    | cons b bs =>
      cases z with
      | nil => simp [lexLtNat] at h₂
      | cons c cs =>
        simp only [lexLtNat, Bool.or_eq_true, Bool.and_eq_true, decide_eq_true_eq] at h₁ h₂ ⊢
        rcases h₁ with h₁ | ⟨rfl, h₁⟩ <;> rcases h₂ with h₂ | ⟨rfl, h₂⟩
        · exact Or.inl (by omega)
        · exact Or.inl h₁
        · exact Or.inl h₂
        · exact Or.inr ⟨rfl, ih bs cs h₁ h₂⟩

theorem lexLtNat_eq_of_not : ∀ x y : List Nat,
    lexLtNat x y = false → lexLtNat y x = false → x = y := by
  intro x
  induction x with
  | nil =>
    intro y h₁ _
    cases y with
    | nil => rfl
    | cons b bs => simp [lexLtNat] at h₁
  | cons a as ih =>
    intro y h₁ h₂
    cases y with
    | nil => simp [lexLtNat] at h₂
    | cons b bs =>
      simp only [lexLtNat, Bool.or_eq_false_iff, Bool.and_eq_false_iff,
        decide_eq_false_iff_not] at h₁ h₂
      obtain ⟨hab, h₁'⟩ := h₁
      obtain ⟨hba, h₂'⟩ := h₂
      have hab' : a = b := by omega
      subst hab'
      rcases h₁' with h | h
      · exact absurd rfl h
      · rcases h₂' with h' | h'
        · exact absurd rfl h'
        · rw [ih bs h h']

theorem collLt_asymm (a b : String) (h : collLt a b = true) : collLt b a = false := by
  simp only [collLt, Bool.or_eq_true, Bool.and_eq_true, decide_eq_true_eq] at h
  simp only [collLt, Bool.or_eq_false_iff, Bool.and_eq_false_iff, decide_eq_false_iff_not]
  rcases h with h | ⟨hp, hc⟩
  · refine ⟨lexLtNat_asymm _ _ h, Or.inl fun he => ?_⟩
    rw [he] at h
    simp [lexLtNat_irrefl] at h
  · rw [hp]
    exact ⟨lexLtNat_irrefl _, Or.inr (lexLtNat_asymm _ _ hc)⟩

theorem collLt_trans (a b c : String) (h₁ : collLt a b = true) (h₂ : collLt b c = true) :
    collLt a c = true := by
  simp only [collLt, Bool.or_eq_true, Bool.and_eq_true, decide_eq_true_eq] at h₁ h₂ ⊢
  rcases h₁ with h₁ | ⟨hp₁, hc₁⟩ <;> rcases h₂ with h₂ | ⟨hp₂, hc₂⟩
  · exact Or.inl (lexLtNat_trans _ _ _ h₁ h₂)
  · exact Or.inl (hp₂ ▸ h₁)
  · exact Or.inl (hp₁ ▸ h₂)
  · exact Or.inr ⟨hp₁.trans hp₂, lexLtNat_trans _ _ _ hc₁ hc₂⟩

theorem collLt_keys_eq (a b : String) (h₁ : collLt a b = false) (h₂ : collLt b a = false) :
    primaryKey a = primaryKey b ∧ caseKey a = caseKey b := by
  simp only [collLt, Bool.or_eq_false_iff, Bool.and_eq_false_iff,
    decide_eq_false_iff_not] at h₁ h₂
  obtain ⟨hp₁, h₁'⟩ := h₁
  obtain ⟨hp₂, h₂'⟩ := h₂
  have hp : primaryKey a = primaryKey b := lexLtNat_eq_of_not _ _ hp₁ hp₂
  refine ⟨hp, ?_⟩
  rcases h₁' with h | h
  · exact absurd hp h
  · rcases h₂' with h' | h'
    · exact absurd hp.symm h'
    · exact lexLtNat_eq_of_not _ _ h h'

theorem collLt_congr_left (a b c : String) (hp : primaryKey a = primaryKey b)
    (hc : caseKey a = caseKey b) : collLt a c = collLt b c := by
  simp [collLt, hp, hc]

theorem localeLe_iff (a b : String) : localeLe a b ↔ collLt b a = false := by
  by_cases h₁ : collLt a b = true
  · simp [localeLe, localeCompare, h₁, collLt_asymm _ _ h₁]
  · simp only [Bool.not_eq_true] at h₁
    by_cases h₂ : collLt b a = true
    · simp [localeLe, localeCompare, h₁, h₂]
    · simp only [Bool.not_eq_true] at h₂
      simp [localeLe, localeCompare, h₁, h₂]

instance : IsTotal String localeLe :=
  ⟨fun a b => by
    rw [localeLe_iff, localeLe_iff]
    cases h : collLt b a with
    | false => exact Or.inl rfl
    | true => exact Or.inr (collLt_asymm _ _ h)⟩

instance : IsTrans String localeLe :=
  ⟨fun a b c h₁ h₂ => by
    rw [localeLe_iff] at h₁ h₂ ⊢
    cases hbc : collLt b c with
    | false =>
      obtain ⟨hp, hc⟩ := collLt_keys_eq b c hbc h₂
      rw [← collLt_congr_left b c a hp hc]
      exact h₁
    | true =>
      cases hca : collLt c a with
      | false => rfl
      | true =>
        have := collLt_trans b c a hbc hca
        rw [this] at h₁
        exact absurd h₁ (by simp)⟩

/-- The reader's listing is a permutation of the directory names. -/
theorem listMigrations_perm (dirs : List MigrationDir) :
    List.Perm (listMigrations dirs) (dirs.map (·.name)) :=
  List.perm_insertionSort localeLe _

/-- The reader's listing is sorted ascending by `localeCompare`. -/
theorem listMigrations_sorted (dirs : List MigrationDir) :
    (listMigrations dirs).Sorted localeLe :=
  List.sorted_insertionSort localeLe _

/-! ## Characterizing the apply loop -/

/-- The pending set `D \ A`: the names of `names` not in `applied`, in `names` order. -/
def pendingOf (applied names : List String) : List String :=
  names.filter (fun n => !applied.contains n)

/-- The queries the loop issues for one pending name. -/
def upQueriesOf (dirs : List MigrationDir) (n : String) : List Query :=
  match readUpSql dirs n with
  | some raw => [.rawScript (jsTrim raw), .insertName n]
  | none => []

/-- The pending names whose `up.sql` is readable (these run and are
recorded). -/
def runnableOf (dirs : List MigrationDir) (applied names : List String) : List String :=
  (pendingOf applied names).filter (fun n => (readUpSql dirs n).isSome)

/-- The pending names without a readable `up.sql` (these are skipped with
a warning). -/
def skippedOf (dirs : List MigrationDir) (applied names : List String) : List String :=
  (pendingOf applied names).filter (fun n => (readUpSql dirs n).isNone)

/-- The trimmed `up.sql` body of a name (defaulting to `""`). -/
def scriptOf (dirs : List MigrationDir) (n : String) : String :=
  ((readUpSql dirs n).map jsTrim).getD ""

theorem ledgerNames_append (a b : List LedgerEntry) :
    ledgerNames (a ++ b) = ledgerNames a ++ ledgerNames b :=
  List.map_append _ a b

/-- Success shape of the apply loop: when every pending name with a
readable script succeeds and pending names are fresh and duplicate-free,
the loop completes, runs the runnable scripts in order, inserts their
ledger rows, and warns once per skipped name. -/
theorem applyLoop_success (sk : String → Bool) (ck : Nat) (dirs : List MigrationDir)
    (applied : List String) :
    ∀ (names : List String) (comm t : DBState) (qs : List Query) (ws : List String),
    (∀ n ∈ names, n ∉ applied → ∀ raw, readUpSql dirs n = some raw →
      sk (jsTrim raw) = true) →
    (∀ n ∈ names, n ∉ applied → n ∉ ledgerNames t.ledger) →
    (pendingOf applied names).Nodup →
    applyLoop sk ck dirs applied names ⟨⟨comm, some t⟩, qs, ws⟩ =
      (⟨⟨comm, some { t with
          ledger := t.ledger ++ (runnableOf dirs applied names).map (⟨·, ck⟩),
          schema := t.schema ++ (runnableOf dirs applied names).map (scriptOf dirs) }⟩,
        qs ++ (pendingOf applied names).flatMap (upQueriesOf dirs),
        ws ++ (skippedOf dirs applied names).map noUpSqlWarning⟩, true) := by
  intro names
  induction names with
  | nil =>
    intro comm t qs ws _ _ _
    simp [applyLoop, pendingOf, runnableOf, skippedOf]
  | cons n rest ih =>
    intro comm t qs ws hok hfresh hnodup
    by_cases ha : n ∈ applied
    · have hpend : pendingOf applied (n :: rest) = pendingOf applied rest := by
        simp [pendingOf, List.filter_cons, ha]
      have step : applyLoop sk ck dirs applied (n :: rest) ⟨⟨comm, some t⟩, qs, ws⟩ =
          applyLoop sk ck dirs applied rest ⟨⟨comm, some t⟩, qs, ws⟩ := by
        simp [applyLoop, ha]
      rw [step, ih comm t qs ws (fun m hm => hok m (List.mem_cons_of_mem _ hm))
        (fun m hm => hfresh m (List.mem_cons_of_mem _ hm)) (by rwa [hpend] at hnodup)]
      simp [runnableOf, skippedOf, hpend]
    · have hpend : pendingOf applied (n :: rest) = n :: pendingOf applied rest := by
        simp [pendingOf, List.filter_cons, ha]
      cases hup : readUpSql dirs n with
      | none =>
        have hrun : runnableOf dirs applied (n :: rest) = runnableOf dirs applied rest := by
          simp [runnableOf, hpend, List.filter_cons, hup]
        have hskip : skippedOf dirs applied (n :: rest) =
            n :: skippedOf dirs applied rest := by
          simp [skippedOf, hpend, List.filter_cons, hup]
        have step : applyLoop sk ck dirs applied (n :: rest) ⟨⟨comm, some t⟩, qs, ws⟩ =
            applyLoop sk ck dirs applied rest
              ⟨⟨comm, some t⟩, qs, ws ++ [noUpSqlWarning n]⟩ := by
          simp [applyLoop, ha, hup, warn]
        rw [step, ih comm t qs (ws ++ [noUpSqlWarning n])
          (fun m hm => hok m (List.mem_cons_of_mem _ hm))
          (fun m hm => hfresh m (List.mem_cons_of_mem _ hm))
          (by rw [hpend] at hnodup; exact hnodup.of_cons)]
        simp [hrun, hskip, hpend, hup, upQueriesOf]
      | some raw =>
        have hsk : sk (jsTrim raw) = true := hok n (List.mem_cons_self n rest) ha raw hup
        have hfr : n ∉ ledgerNames t.ledger := hfresh n (List.mem_cons_self n rest) ha
        have hfr' : ∀ x ∈ t.ledger, ¬x.name = n := by
          intro x hx he
          exact hfr (by simp [ledgerNames]; exact ⟨x, hx, he⟩)
        have hfr2 : ¬∃ a ∈ t.ledger, a.name = n := by
          rintro ⟨a, haa, hae⟩
          exact hfr' a haa hae
        have hrun : runnableOf dirs applied (n :: rest) =
            n :: runnableOf dirs applied rest := by
          simp [runnableOf, hpend, List.filter_cons, hup]
        have hskip : skippedOf dirs applied (n :: rest) = skippedOf dirs applied rest := by
          simp [skippedOf, hpend, List.filter_cons, hup]
        have hnodup' : (pendingOf applied rest).Nodup := by
          rw [hpend] at hnodup; exact hnodup.of_cons
        have hnmem : n ∉ pendingOf applied rest := by
          rw [hpend] at hnodup
          exact (List.nodup_cons.mp hnodup).1
        have step : applyLoop sk ck dirs applied (n :: rest) ⟨⟨comm, some t⟩, qs, ws⟩ =
            applyLoop sk ck dirs applied rest
              ⟨⟨comm, some { t with
                  ledger := t.ledger ++ [⟨n, ck⟩],
                  schema := t.schema ++ [jsTrim raw] }⟩,
                qs ++ [.rawScript (jsTrim raw), .insertName n], ws⟩ := by
          simp [applyLoop, ha, hup, issue, runQuery, curState, setCur, hsk,
            ledgerNames, hfr2, List.append_assoc]
        have hfresh' : ∀ m ∈ rest, m ∉ applied →
            m ∉ ledgerNames (t.ledger ++ [(⟨n, ck⟩ : LedgerEntry)]) := by
          intro m hm hmc
          have hm' : m ∈ pendingOf applied rest := by
            simp [pendingOf, List.mem_filter, hm, hmc]
          have hne : m ≠ n := fun he => hnmem (he ▸ hm')
          have hold := hfresh m (List.mem_cons_of_mem _ hm) hmc
          simp only [ledgerNames, List.map_append, List.mem_append] at hold ⊢
          rintro (h | h)
          · exact hold h
          · simp at h
            exact hne h
        have ihx := ih comm ⟨t.migTable, t.ledger ++ [⟨n, ck⟩], t.schema ++ [jsTrim raw]⟩
          (qs ++ [.rawScript (jsTrim raw), .insertName n]) ws
          (fun m hm => hok m (List.mem_cons_of_mem _ hm)) hfresh' hnodup'
        rw [step, ihx]
        simp [hrun, hskip, hpend, upQueriesOf, hup, scriptOf, List.append_assoc]

/-- The apply loop never touches the committed state and never closes the
transaction: every query it issues goes to the transaction's working
state. -/
theorem applyLoop_committed (sk : String → Bool) (ck : Nat) (dirs : List MigrationDir)
    (applied : List String) :
    ∀ (names : List String) (c : Ctx), c.session.tx.isSome = true →
    ((applyLoop sk ck dirs applied names c).1.session.committed = c.session.committed ∧
      (applyLoop sk ck dirs applied names c).1.session.tx.isSome = true) := by
  intro names
  induction names with
  | nil => intro c h; simp [applyLoop, h]
  | cons n rest ih =>
    intro c h
    obtain ⟨t, ht⟩ := Option.isSome_iff_exists.mp h
    have hcs : curState c.session = t := by simp [curState, ht]
    by_cases ha : n ∈ applied
    · simpa [applyLoop, ha] using ih c h
    · cases hup : readUpSql dirs n with
      | none => simpa [applyLoop, ha, hup, warn] using ih (warn (noUpSqlWarning n) c) h
      | some raw =>
        by_cases hsk : sk (jsTrim raw) = true
        · by_cases hdup : n ∈ ledgerNames t.ledger
          · simp [applyLoop, ha, hup, issue, runQuery, hsk, setCur, curState, ht, hdup]
          · have step : applyLoop sk ck dirs applied (n :: rest) c =
                applyLoop sk ck dirs applied rest
                  ⟨⟨c.session.committed,
                      some ⟨t.migTable, t.ledger ++ [⟨n, ck⟩], t.schema ++ [jsTrim raw]⟩⟩,
                    c.queries ++ [.rawScript (jsTrim raw), .insertName n], c.warnings⟩ := by
              simp [applyLoop, ha, hup, issue, runQuery, hsk, setCur, curState, ht, hdup]
            rw [step]
            simpa using ih _ (by simp)
        · simp only [Bool.not_eq_true] at hsk
          simp [applyLoop, ha, hup, issue, runQuery, hsk, ht]

/-- If some pending name has a readable `up.sql` whose body fails, the
apply loop does not complete (its caller then rolls back and exits 1). -/
theorem applyLoop_failure (sk : String → Bool) (ck : Nat) (dirs : List MigrationDir)
    (applied : List String) :
    ∀ (names : List String) (c : Ctx), c.session.tx.isSome = true →
    (∃ n ∈ names, n ∉ applied ∧
      ∃ raw, readUpSql dirs n = some raw ∧ sk (jsTrim raw) = false) →
    (applyLoop sk ck dirs applied names c).2 = false := by
  intro names
  induction names with
  | nil => intro c _ h; simp at h
  | cons n rest ih =>
    intro c htx h
    obtain ⟨t, ht⟩ := Option.isSome_iff_exists.mp htx
    obtain ⟨m, hm, hma, raw, hup, hsk⟩ := h
    rcases List.mem_cons.mp hm with rfl | hm'
    · -- the failing migration is the head: its script errors immediately
      simp [applyLoop, hma, hup, issue, runQuery, hsk]
    · by_cases ha : n ∈ applied
      · simpa [applyLoop, ha] using ih c htx ⟨m, hm', hma, raw, hup, hsk⟩
      · cases hupn : readUpSql dirs n with
        | none =>
          simpa [applyLoop, ha, hupn, warn] using
            ih (warn (noUpSqlWarning n) c) htx ⟨m, hm', hma, raw, hup, hsk⟩
        | some rawn =>
          by_cases hskn : sk (jsTrim rawn) = true
          · by_cases hdup : n ∈ ledgerNames t.ledger
            · simp [applyLoop, ha, hupn, issue, runQuery, hskn, hdup, curState, setCur, ht]
            · have step : applyLoop sk ck dirs applied (n :: rest) c =
                  applyLoop sk ck dirs applied rest
                    ⟨⟨c.session.committed,
                        some ⟨t.migTable, t.ledger ++ [⟨n, ck⟩], t.schema ++ [jsTrim rawn]⟩⟩,
                      c.queries ++ [.rawScript (jsTrim rawn), .insertName n], c.warnings⟩ := by
                simp [applyLoop, ha, hupn, issue, runQuery, hskn, setCur, curState, ht, hdup]
              rw [step]
              exact ih _ (by simp) ⟨m, hm', hma, raw, hup, hsk⟩
          · simp only [Bool.not_eq_true] at hskn
            simp [applyLoop, ha, hupn, issue, runQuery, hskn]

/-- The context of `up` after BEGIN, CREATE TABLE IF NOT EXISTS and the
ledger SELECT have run: the transaction working state has the ledger table
present, nothing is committed yet. -/
def upPrelude (db : DBState) : Ctx :=
  ⟨⟨db, some { db with migTable := true }⟩,
    [.beginTx, .createMigrationsTable, .selectNames], []⟩

/-- Unfolding `up` past its prelude when the connection string and the
migrations directory are present. -/
theorem up_eq (sk : String → Bool) (ck : Nat) (env : Env) (db : DBState)
    (u : String) (hu : envUrl env = some u) (dirs : List MigrationDir) :
    up sk ck env ⟨some dirs⟩ db =
      (let r := applyLoop sk ck dirs (ledgerNames db.ledger) (listMigrations dirs)
        (upPrelude db)
       if r.2 then
         ⟨curState r.1.session, .finished, r.1.queries ++ [.commitTx], r.1.warnings⟩
       else
         ⟨r.1.session.committed, .exited 1, r.1.queries ++ [.rollbackTx], r.1.warnings⟩) := by
  simp [up, hu, issue, runQuery, curState, setCur, upPrelude, ledgerNames]

theorem findDir_eq_some (dirs : List MigrationDir) (n : String) (d : MigrationDir)
    (h : findDir dirs n = some d) : d ∈ dirs ∧ d.name = n := by
  refine ⟨List.mem_of_find?_eq_some h, ?_⟩
  have := List.find?_some h
  simpa using this

theorem findDir_of_mem (dirs : List MigrationDir) (hnd : (dirs.map (·.name)).Nodup)
    (d : MigrationDir) (hd : d ∈ dirs) : findDir dirs d.name = some d := by
  induction dirs with
  | nil => simp at hd
  | cons e rest ih =>
    simp only [List.map_cons, List.nodup_cons] at hnd
    rcases List.mem_cons.mp hd with rfl | hd'
    · simp [findDir, List.find?_cons]
    · have hne : decide (e.name = d.name) = false := by
        simp only [decide_eq_false_iff_not]
        intro he
        exact hnd.1 (he ▸ List.mem_map_of_mem (·.name) hd')
      simp only [findDir, List.find?_cons, hne]
      exact ih hnd.2 hd'

theorem readUpSql_of_mem (dirs : List MigrationDir) (hnd : (dirs.map (·.name)).Nodup)
    (d : MigrationDir) (hd : d ∈ dirs) : readUpSql dirs d.name = d.up_sql := by
  simp [readUpSql, findDir_of_mem dirs hnd d hd]

theorem readDownSql_of_mem (dirs : List MigrationDir) (hnd : (dirs.map (·.name)).Nodup)
    (d : MigrationDir) (hd : d ∈ dirs) : readDownSql dirs d.name = d.down_sql := by
  simp [readDownSql, findDir_of_mem dirs hnd d hd]

theorem lastApplied_eq_none : ∀ l : List LedgerEntry, lastApplied l = none ↔ l = [] := by
  intro l
  cases l with
  | nil => simp [lastApplied]
  | cons x rest =>
    constructor
    · intro h
      exfalso
      cases hr : lastApplied rest with
      | none => simp [lastApplied, hr] at h
      | some m =>
        by_cases hle : m.run_on ≤ x.run_on <;> simp [lastApplied, hr, hle] at h
    · intro h
      simp at h

theorem lastApplied_mem : ∀ (l : List LedgerEntry) (e : LedgerEntry),
    lastApplied l = some e → e ∈ l := by
  intro l
  induction l with
  | nil => intro e h; simp [lastApplied] at h
  | cons x rest ih =>
    intro e h
    cases hr : lastApplied rest with
    | none =>
      simp only [lastApplied, hr] at h
      exact List.mem_cons.mpr (Or.inl (Option.some_injective _ h).symm)
    | some m =>
      simp only [lastApplied, hr] at h
      by_cases hle : m.run_on ≤ x.run_on
      · rw [if_pos hle] at h
        exact List.mem_cons.mpr (Or.inl (Option.some_injective _ h).symm)
      · rw [if_neg hle] at h
        have hme : m = e := Option.some_injective _ h
        exact List.mem_cons.mpr (Or.inr (hme ▸ ih m hr))

theorem lastApplied_max : ∀ (l : List LedgerEntry) (e : LedgerEntry),
    lastApplied l = some e → ∀ x ∈ l, x.run_on ≤ e.run_on := by
  intro l
  induction l with
  | nil => intro e h; simp [lastApplied] at h
  | cons y rest ih =>
    intro e h x hx
    cases hr : lastApplied rest with
    | none =>
      simp only [lastApplied, hr] at h
      have : rest = [] := (lastApplied_eq_none rest).mp hr
      subst this
      have hxy : x = y := by simpa using hx
      have hey : y = e := Option.some_injective _ h
      rw [hxy, ← hey]
    | some m =>
      simp only [lastApplied, hr] at h
      rcases List.mem_cons.mp hx with rfl | hx'
      · by_cases hle : m.run_on ≤ x.run_on
        · rw [if_pos hle] at h
          rw [← Option.some_injective _ h]
        · rw [if_neg hle] at h
          rw [← Option.some_injective _ h]
          omega
      · have hxm : x.run_on ≤ m.run_on := ih m hr x hx'
        by_cases hle : m.run_on ≤ y.run_on
        · rw [if_pos hle] at h
          rw [← Option.some_injective _ h]
          omega
        · rw [if_neg hle] at h
          rw [← Option.some_injective _ h]
          exact hxm

/-- The apply loop only ever appends migration-body executions and ledger
inserts to the query trace. -/
theorem applyLoop_queries (sk : String → Bool) (ck : Nat) (dirs : List MigrationDir)
    (applied : List String) :
    ∀ (names : List String) (c : Ctx), c.session.tx.isSome = true →
    ∃ qs, (applyLoop sk ck dirs applied names c).1.queries = c.queries ++ qs ∧
      ∀ q ∈ qs, (∃ b, q = Query.rawScript b) ∨ ∃ n, q = Query.insertName n := by
  intro names
  induction names with
  | nil => intro c _; exact ⟨[], by simp [applyLoop], by simp⟩
  | cons n rest ih =>
    intro c htx
    obtain ⟨t, ht⟩ := Option.isSome_iff_exists.mp htx
    by_cases ha : n ∈ applied
    · simpa [applyLoop, ha] using ih c htx
    · cases hup : readUpSql dirs n with
      | none =>
        obtain ⟨qs, hq, hall⟩ := ih (warn (noUpSqlWarning n) c) htx
        exact ⟨qs, by simpa [applyLoop, ha, hup, warn] using hq, hall⟩
      | some raw =>
        by_cases hsk : sk (jsTrim raw) = true
        · by_cases hdup : n ∈ ledgerNames t.ledger
          · refine ⟨[.rawScript (jsTrim raw), .insertName n], ?_, by simp⟩
            simp [applyLoop, ha, hup, issue, runQuery, hsk, setCur, curState, ht, hdup]
          · have step : applyLoop sk ck dirs applied (n :: rest) c =
                applyLoop sk ck dirs applied rest
                  ⟨⟨c.session.committed,
                      some ⟨t.migTable, t.ledger ++ [⟨n, ck⟩], t.schema ++ [jsTrim raw]⟩⟩,
                    c.queries ++ [.rawScript (jsTrim raw), .insertName n], c.warnings⟩ := by
              simp [applyLoop, ha, hup, issue, runQuery, hsk, setCur, curState, ht, hdup]
            obtain ⟨qs, hq, hall⟩ := ih ⟨⟨c.session.committed,
                some ⟨t.migTable, t.ledger ++ [⟨n, ck⟩], t.schema ++ [jsTrim raw]⟩⟩,
              c.queries ++ [.rawScript (jsTrim raw), .insertName n], c.warnings⟩ (by simp)
            rw [step]
            refine ⟨[.rawScript (jsTrim raw), .insertName n] ++ qs, ?_, ?_⟩
            · rw [hq]; simp
            · intro q hqm
              rcases List.mem_append.mp hqm with h | h
              · rcases List.mem_cons.mp h with rfl | h
                · exact Or.inl ⟨jsTrim raw, rfl⟩
                · have : q = Query.insertName n := by simpa using h
                  exact Or.inr ⟨n, this⟩
              · exact hall q h
        · simp only [Bool.not_eq_true] at hsk
          exact ⟨[.rawScript (jsTrim raw)], by
            simp [applyLoop, ha, hup, issue, runQuery, hsk], by simp⟩

/-- Success shape of `up`: with a connection string present, the
migrations root present, duplicate-free pending names, and every readable
pending script succeeding, the command commits one batch containing
exactly the runnable pending migrations. -/
theorem up_success (sk : String → Bool) (ck : Nat) (env : Env)
    (dirs : List MigrationDir) (db : DBState) (u : String)
    (hu : envUrl env = some u)
    (hok : ∀ n ∈ listMigrations dirs, n ∉ ledgerNames db.ledger →
      ∀ raw, readUpSql dirs n = some raw → sk (jsTrim raw) = true)
    (hnodup : (pendingOf (ledgerNames db.ledger) (listMigrations dirs)).Nodup) :
    up sk ck env ⟨some dirs⟩ db =
      ⟨⟨true,
          db.ledger ++ (runnableOf dirs (ledgerNames db.ledger)
            (listMigrations dirs)).map (⟨·, ck⟩),
          db.schema ++ (runnableOf dirs (ledgerNames db.ledger)
            (listMigrations dirs)).map (scriptOf dirs)⟩,
        .finished,
        [.beginTx, .createMigrationsTable, .selectNames] ++
          (pendingOf (ledgerNames db.ledger) (listMigrations dirs)).flatMap
            (upQueriesOf dirs) ++ [.commitTx],
        (skippedOf dirs (ledgerNames db.ledger)
          (listMigrations dirs)).map noUpSqlWarning⟩ := by
  rw [up_eq sk ck env db u hu dirs]
  have hs := applyLoop_success sk ck dirs (ledgerNames db.ledger) (listMigrations dirs)
    db { db with migTable := true } [.beginTx, .createMigrationsTable, .selectNames] []
    hok (fun n _ hn => hn) hnodup
  simp only [upPrelude]
  rw [hs]
  simp [curState]

/-! ## Claim theorems -/

/-- C10: the status command is read-only: for every combination of its
options and every disk/database state, the committed database after the
run equals the database before it, and every query it issues is the
ledger SELECT (`SELECT name, run_on FROM migrations ORDER BY run_on ASC`)
— it never inserts, updates or deletes ledger rows, never creates the
ledger table, and (being a pure function of its disk input) never writes
to the file system. -/
theorem status_read_only (sk : String → Bool) (ck : Nat) (opts : StatusOptions)
    (env : Env) (disk : Disk) (db : DBState) :
    (status sk ck opts env disk db).db = db ∧
    ∀ q ∈ (status sk ck opts env disk db).queries, q = Query.selectNamesRunOn := by
  cases hu : envUrl env with
  | none => simp [status, hu]
  | some u =>
    cases hd : disk.migrationsDir with
    | none => simp [status, hu, hd]
    | some dirs =>
      by_cases ht : db.migTable = true
      · constructor
        · simp only [status, hu, hd, issue, runQuery, curState, Option.getD_none, ht,
            if_true]
          split <;> rfl
        · intro q hq
          simp only [status, hu, hd, issue, runQuery, curState, Option.getD_none, ht,
            if_true] at hq
          split at hq <;> simpa using hq
      · constructor
        · simp [status, hu, hd, issue, runQuery, curState, ht]
        · intro q hq
          simp only [status, hu, hd, issue, runQuery, curState, Option.getD_none,
            if_neg ht] at hq
          simpa using hq

/-- C9: revert-last on an existing but empty ledger is a successful no-op:
the only query is the `ORDER BY run_on DESC LIMIT 1` SELECT — no BEGIN, no
`down.sql` execution, no DELETE — the database is unchanged and the
process finishes normally (exit code 0). -/
theorem down_empty_ledger_noop (sk : String → Bool) (ck : Nat) (env : Env)
    (disk : Disk) (db : DBState) (u : String) (hu : envUrl env = some u)
    (ht : db.migTable = true) (hl : db.ledger = []) :
    down sk ck env disk db = ⟨db, .finished, [.selectLast], []⟩ := by
  simp [down, hu, issue, runQuery, curState, ht, hl, lastApplied]

theorem down_empty_ledger_noop_witness :
    down (fun _ => true) 0 ⟨some "postgres://u", none⟩ ⟨some []⟩ ⟨true, [], []⟩ =
      ⟨⟨true, [], []⟩, .finished, [.selectLast], []⟩ :=
  down_empty_ledger_noop (fun _ => true) 0 ⟨some "postgres://u", none⟩ ⟨some []⟩
    ⟨true, [], []⟩ "postgres://u" rfl rfl rfl

/-- C8 counterexample: with a valid connection string but a missing
migrations root, apply-pending exits non-zero only *after* the transaction
has been opened: BEGIN, the ledger-table creation and the ledger SELECT
are already in the query trace, contradicting "exits non-zero before any
database transaction has been opened (no BEGIN ...)". -/
theorem config_error_after_begin :
    (up (fun _ => true) 0 ⟨some "postgres://u", none⟩ ⟨none⟩ ⟨false, [], []⟩).outcome =
        .exited 1 ∧
    (up (fun _ => true) 0 ⟨some "postgres://u", none⟩ ⟨none⟩ ⟨false, [], []⟩).queries =
        [.beginTx, .createMigrationsTable, .selectNames] ∧
    Query.beginTx ∈
      (up (fun _ => true) 0 ⟨some "postgres://u", none⟩ ⟨none⟩ ⟨false, [], []⟩).queries := by
  refine ⟨rfl, rfl, ?_⟩
  decide

/-- C8 (amended): a missing connection string is fatal (exit 1) before any
database access in all three commands, and `status` also checks the
migrations root before connecting; but in apply-pending a missing
migrations root is detected only after BEGIN, the idempotent ledger-table
creation and the ledger SELECT have been issued — the run still exits 1
and commits nothing (the abandoned transaction leaves the committed
database unchanged). -/
theorem config_errors_fatal (sk : String → Bool) (ck : Nat) (env : Env)
    (disk : Disk) (db : DBState) :
    (envUrl env = none →
      up sk ck env disk db = ⟨db, .exited 1, [], []⟩ ∧
      down sk ck env disk db = ⟨db, .exited 1, [], []⟩ ∧
      ∀ opts, status sk ck opts env disk db = ⟨db, .exited 1, [], []⟩) ∧
    (∀ u, envUrl env = some u → disk.migrationsDir = none →
      (up sk ck env disk db).outcome = .exited 1 ∧
      (up sk ck env disk db).db = db ∧
      (up sk ck env disk db).queries = [.beginTx, .createMigrationsTable, .selectNames] ∧
      ∀ opts, status sk ck opts env disk db = ⟨db, .exited 1, [], []⟩) := by
  constructor
  · intro h
    exact ⟨by simp [up, h], by simp [down, h], fun opts => by simp [status, h]⟩
  · intro u hu hd
    obtain ⟨dm⟩ := disk
    cases dm with
    | none =>
      refine ⟨?_, ?_, ?_, fun opts => by simp [status, hu]⟩ <;>
        simp [up, hu, issue, runQuery, curState, setCur]
    | some dirs => simp at hd

theorem config_errors_fatal_witness :
    up (fun _ => true) 0 ⟨none, none⟩ ⟨none⟩ ⟨false, [], []⟩ =
        ⟨⟨false, [], []⟩, .exited 1, [], []⟩ ∧
    (up (fun _ => true) 0 ⟨some "postgres://u", none⟩ ⟨none⟩ ⟨false, [], []⟩).outcome =
        .exited 1 :=
  ⟨((config_errors_fatal (fun _ => true) 0 ⟨none, none⟩ ⟨none⟩ ⟨false, [], []⟩).1 rfl).1,
    ((config_errors_fatal (fun _ => true) 0 ⟨some "postgres://u", none⟩ ⟨none⟩
      ⟨false, [], []⟩).2 "postgres://u" rfl rfl).1⟩

/-- C1: apply-pending is atomic over the whole batch: everything runs in a
single transaction (exactly one BEGIN, never a COMMIT on the failure
path), and if any pending migration's script fails, the run exits 1 and
the committed database — in particular the `migrations` ledger — is
exactly what it was before the run: no ledger rows from earlier-in-batch
successes survive. -/
theorem up_atomic (sk : String → Bool) (ck : Nat) (env : Env)
    (dirs : List MigrationDir) (db : DBState) (u : String)
    (hu : envUrl env = some u)
    (hnd : (dirs.map (·.name)).Nodup)
    (hfail : ∃ d ∈ dirs, d.name ∉ ledgerNames db.ledger ∧
      ∃ raw, d.up_sql = some raw ∧ sk (jsTrim raw) = false) :
    (up sk ck env ⟨some dirs⟩ db).outcome = .exited 1 ∧
    (up sk ck env ⟨some dirs⟩ db).db = db ∧
    (up sk ck env ⟨some dirs⟩ db).queries.count Query.beginTx = 1 ∧
    Query.commitTx ∉ (up sk ck env ⟨some dirs⟩ db).queries := by
  obtain ⟨d, hd, hpend, raw, hup, hsk⟩ := hfail
  have hmem : d.name ∈ listMigrations dirs :=
    (listMigrations_perm dirs).mem_iff.mpr (List.mem_map_of_mem _ hd)
  have hread : readUpSql dirs d.name = some raw := by
    rw [readUpSql_of_mem dirs hnd d hd]; exact hup
  have hfail' : ∃ n ∈ listMigrations dirs, n ∉ ledgerNames db.ledger ∧
      ∃ r, readUpSql dirs n = some r ∧ sk (jsTrim r) = false :=
    ⟨d.name, hmem, hpend, raw, hread, hsk⟩
  have hloop := applyLoop_failure sk ck dirs (ledgerNames db.ledger)
    (listMigrations dirs) (upPrelude db) (by simp [upPrelude]) hfail'
  obtain ⟨hcomm, _⟩ := applyLoop_committed sk ck dirs (ledgerNames db.ledger)
    (listMigrations dirs) (upPrelude db) (by simp [upPrelude])
  obtain ⟨qs, hqs, hall⟩ := applyLoop_queries sk ck dirs (ledgerNames db.ledger)
    (listMigrations dirs) (upPrelude db) (by simp [upPrelude])
  have hnb : Query.beginTx ∉ qs := by
    intro hmem'
    rcases hall _ hmem' with ⟨b, hb⟩ | ⟨n, hn⟩ <;> simp_all
  have hnc : Query.commitTx ∉ qs := by
    intro hmem'
    rcases hall _ hmem' with ⟨b, hb⟩ | ⟨n, hn⟩ <;> simp_all
  rw [up_eq sk ck env db u hu dirs]
  simp only [upPrelude] at hloop hcomm hqs
  refine ⟨?_, ?_, ?_, ?_⟩
  · simp [upPrelude, hloop]
  · simp only [upPrelude, hloop, Bool.false_eq_true, if_false]
    simpa using hcomm
  · simp [upPrelude, hloop, hqs, List.count_append, List.count_cons,
      List.count_eq_zero.mpr hnb]
  · simp [upPrelude, hloop, hqs, hnc]

theorem up_atomic_witness :
    let r := up (fun b => b ≠ "BAD") 3 ⟨some "postgres://u", none⟩
      ⟨some [⟨"a", some "GOOD", none⟩, ⟨"b", some "BAD", none⟩]⟩ ⟨true, [], []⟩
    r.outcome = .exited 1 ∧ r.db = ⟨true, [], []⟩ ∧
    r.queries.count Query.beginTx = 1 ∧ Query.commitTx ∉ r.queries :=
  up_atomic (fun b => b ≠ "BAD") 3 ⟨some "postgres://u", none⟩
    [⟨"a", some "GOOD", none⟩, ⟨"b", some "BAD", none⟩] ⟨true, [], []⟩
    "postgres://u" rfl (by decide)
    ⟨⟨"b", some "BAD", none⟩, by decide, by decide, "BAD", rfl, by decide⟩

/-- Refined success shape: when every pending directory has a readable,
succeeding script, the runnable set is the whole pending set and no
warning is produced. -/
theorem up_success_all (sk : String → Bool) (ck : Nat) (env : Env)
    (dirs : List MigrationDir) (db : DBState) (u : String)
    (hu : envUrl env = some u)
    (hnd : (dirs.map (·.name)).Nodup)
    (hscripts : ∀ d ∈ dirs, d.name ∉ ledgerNames db.ledger →
      ∃ raw, d.up_sql = some raw ∧ sk (jsTrim raw) = true) :
    up sk ck env ⟨some dirs⟩ db =
      ⟨⟨true,
          db.ledger ++ (pendingOf (ledgerNames db.ledger)
            (listMigrations dirs)).map (⟨·, ck⟩),
          db.schema ++ (pendingOf (ledgerNames db.ledger)
            (listMigrations dirs)).map (scriptOf dirs)⟩,
        .finished,
        [.beginTx, .createMigrationsTable, .selectNames] ++
          (pendingOf (ledgerNames db.ledger) (listMigrations dirs)).flatMap
            (upQueriesOf dirs) ++ [.commitTx],
        []⟩ := by
  have hok : ∀ n ∈ listMigrations dirs, n ∉ ledgerNames db.ledger →
      ∀ raw, readUpSql dirs n = some raw → sk (jsTrim raw) = true := by
    intro n hn hna raw hr
    obtain ⟨d, hfd, hupd⟩ := Option.bind_eq_some.mp hr
    obtain ⟨hdm, hdn⟩ := findDir_eq_some dirs n d hfd
    obtain ⟨raw2, hup2, hsk2⟩ := hscripts d hdm (hdn ▸ hna)
    rw [hup2] at hupd
    exact (Option.some_injective _ hupd) ▸ hsk2
  have hsome : ∀ n ∈ pendingOf (ledgerNames db.ledger) (listMigrations dirs),
      (readUpSql dirs n).isSome = true := by
    intro n hn
    have hn' : n ∈ listMigrations dirs ∧ n ∉ ledgerNames db.ledger := by
      simpa [pendingOf] using List.mem_filter.mp hn
    have hmap : n ∈ dirs.map (·.name) := (listMigrations_perm dirs).mem_iff.mp hn'.1
    obtain ⟨d, hdm, hdn⟩ := List.mem_map.mp hmap
    obtain ⟨raw, hup, _⟩ := hscripts d hdm (hdn ▸ hn'.2)
    rw [← hdn, readUpSql_of_mem dirs hnd d hdm, hup]
    rfl
  have hrun : runnableOf dirs (ledgerNames db.ledger) (listMigrations dirs) =
      pendingOf (ledgerNames db.ledger) (listMigrations dirs) :=
    List.filter_eq_self.mpr hsome
  have hskip : skippedOf dirs (ledgerNames db.ledger) (listMigrations dirs) = [] := by
    rw [skippedOf, List.filter_eq_nil_iff]
    intro n hn
    cases hre : readUpSql dirs n with
    | some v => simp
    | none =>
      exfalso
      have hs := hsome n hn
      rw [hre] at hs
      simp at hs
  have hnodup : (pendingOf (ledgerNames db.ledger) (listMigrations dirs)).Nodup :=
    List.Nodup.filter _ ((listMigrations_perm dirs).nodup_iff.mpr hnd)
  rw [up_success sk ck env dirs db u hu hok hnodup, hrun, hskip]
  simp

/-- C2: apply-pending processes exactly the names on disk that are not in
the ledger (`D \\ A`), in the reader's ascending sorted order; for each
such name it executes its (trimmed) `up.sql` body and then inserts one
ledger row for that name, and names already in the ledger are never
re-executed: the query trace is exactly BEGIN, the table creation, the
ledger SELECT, then script-and-insert per pending name in order, then
COMMIT, and the final ledger is the old ledger followed by the pending
names in that order. -/
theorem up_pending_exact (sk : String → Bool) (ck : Nat) (env : Env)
    (dirs : List MigrationDir) (db : DBState) (u : String)
    (hu : envUrl env = some u)
    (hnd : (dirs.map (·.name)).Nodup)
    (hscripts : ∀ d ∈ dirs, d.name ∉ ledgerNames db.ledger →
      ∃ raw, d.up_sql = some raw ∧ sk (jsTrim raw) = true) :
    (up sk ck env ⟨some dirs⟩ db).outcome = .finished ∧
    (up sk ck env ⟨some dirs⟩ db).queries =
      [.beginTx, .createMigrationsTable, .selectNames] ++
        (pendingOf (ledgerNames db.ledger) (listMigrations dirs)).flatMap
          (upQueriesOf dirs) ++ [.commitTx] ∧
    ledgerNames (up sk ck env ⟨some dirs⟩ db).db.ledger =
      ledgerNames db.ledger ++
        pendingOf (ledgerNames db.ledger) (listMigrations dirs) ∧
    (up sk ck env ⟨some dirs⟩ db).warnings = [] := by
  rw [up_success_all sk ck env dirs db u hu hnd hscripts]
  refine ⟨rfl, rfl, ?_, rfl⟩
  have hcomp : ((fun x : LedgerEntry => x.name) ∘ fun x : String =>
      ({ name := x, run_on := ck } : LedgerEntry)) = id := rfl
  simp [ledgerNames, List.map_map, hcomp]

theorem up_pending_exact_witness :
    let r := up (fun _ => true) 9 ⟨some "postgres://u", none⟩
      ⟨some [⟨"a", some "SA", none⟩, ⟨"b", some "SB", none⟩, ⟨"c", some "SC", none⟩]⟩
      ⟨true, [⟨"a", 1⟩], []⟩
    r.outcome = .finished ∧
    r.queries = [.beginTx, .createMigrationsTable, .selectNames,
      .rawScript "SB", .insertName "b", .rawScript "SC", .insertName "c",
      .commitTx] ∧
    ledgerNames r.db.ledger = ["a", "b", "c"] ∧ r.warnings = [] := by
  obtain ⟨h1, h2, h3, h4⟩ := up_pending_exact (fun _ => true) 9
    ⟨some "postgres://u", none⟩
    [⟨"a", some "SA", none⟩, ⟨"b", some "SB", none⟩, ⟨"c", some "SC", none⟩]
    ⟨true, [⟨"a", 1⟩], []⟩ "postgres://u" rfl (by decide)
    (by
      intro d hd hpend
      simp only [List.mem_cons, List.not_mem_nil, or_false] at hd
      rcases hd with rfl | rfl | rfl
      · exact ⟨"SA", rfl, by decide⟩
      · exact ⟨"SB", rfl, by decide⟩
      · exact ⟨"SC", rfl, by decide⟩)
  refine ⟨h1, ?_, ?_, h4⟩
  · rw [h2]; decide
  · rw [h3]; decide

/-- C4: apply-pending is idempotent on the ledger: with the applied set a
subset of the disk set and all scripts present and succeeding, one run
makes the set of ledger names equal to the set of disk names, and an
immediate second run has an empty pending set: it performs no ledger
write and no migration-body execution — its whole trace is BEGIN, the
idempotent ledger-table creation, the ledger SELECT and COMMIT — and
leaves the database exactly as the first run left it. -/
theorem up_ledger_idempotent (sk : String → Bool) (ck : Nat) (env : Env)
    (dirs : List MigrationDir) (db : DBState) (u : String)
    (hu : envUrl env = some u)
    (hnd : (dirs.map (·.name)).Nodup)
    (hsub : ∀ n ∈ ledgerNames db.ledger, n ∈ dirs.map (·.name))
    (hscripts : ∀ d ∈ dirs, ∃ raw, d.up_sql = some raw ∧ sk (jsTrim raw) = true) :
    (∀ n, n ∈ ledgerNames (up sk ck env ⟨some dirs⟩ db).db.ledger ↔
      n ∈ dirs.map (·.name)) ∧
    up sk ck env ⟨some dirs⟩ ((up sk ck env ⟨some dirs⟩ db).db) =
      ⟨(up sk ck env ⟨some dirs⟩ db).db, .finished,
        [.beginTx, .createMigrationsTable, .selectNames, .commitTx], []⟩ := by
  have hscripts' : ∀ d ∈ dirs, d.name ∉ ledgerNames db.ledger →
      ∃ raw, d.up_sql = some raw ∧ sk (jsTrim raw) = true :=
    fun d hd _ => hscripts d hd
  have h1 := up_success_all sk ck env dirs db u hu hnd hscripts'
  have hcomp : ((fun x : LedgerEntry => x.name) ∘ fun x : String =>
      ({ name := x, run_on := ck } : LedgerEntry)) = id := rfl
  have hl1 : ledgerNames (up sk ck env ⟨some dirs⟩ db).db.ledger =
      ledgerNames db.ledger ++
        pendingOf (ledgerNames db.ledger) (listMigrations dirs) := by
    rw [h1]
    simp [ledgerNames, List.map_map, hcomp]
  have hnames : ∀ n, n ∈ ledgerNames (up sk ck env ⟨some dirs⟩ db).db.ledger ↔
      n ∈ dirs.map (·.name) := by
    intro n
    rw [hl1]
    constructor
    · intro h
      rcases List.mem_append.mp h with h | h
      · exact hsub n h
      · have := List.mem_filter.mp h
        exact (listMigrations_perm dirs).mem_iff.mp this.1
    · intro h
      by_cases hn : n ∈ ledgerNames db.ledger
      · exact List.mem_append.mpr (Or.inl hn)
      · refine List.mem_append.mpr (Or.inr (List.mem_filter.mpr ⟨?_, ?_⟩))
        · exact (listMigrations_perm dirs).mem_iff.mpr h
        · simpa using hn
  refine ⟨hnames, ?_⟩
  have hpend2 : pendingOf (ledgerNames (up sk ck env ⟨some dirs⟩ db).db.ledger)
      (listMigrations dirs) = [] := by
    rw [pendingOf, List.filter_eq_nil_iff]
    intro n hn
    have hmap : n ∈ dirs.map (·.name) := (listMigrations_perm dirs).mem_iff.mp hn
    have hmem : n ∈ ledgerNames (up sk ck env ⟨some dirs⟩ db).db.ledger :=
      (hnames n).mpr hmap
    simp [hmem]
  have h2 := up_success_all sk ck env dirs ((up sk ck env ⟨some dirs⟩ db).db) u hu hnd
    (fun d hd _ => hscripts d hd)
  rw [h2, hpend2]
  conv_rhs => rw [h1]
  rw [h1]
  simp

theorem up_ledger_idempotent_witness :
    ("b" ∈ ledgerNames (up (fun _ => true) 5 ⟨some "postgres://u", none⟩
        ⟨some [⟨"a", some "SA", none⟩, ⟨"b", some "SB", none⟩]⟩
        ⟨true, [⟨"a", 1⟩], []⟩).db.ledger ↔
      "b" ∈ [⟨"a", some "SA", none⟩,
        (⟨"b", some "SB", none⟩ : MigrationDir)].map (·.name)) ∧
    up (fun _ => true) 5 ⟨some "postgres://u", none⟩
        ⟨some [⟨"a", some "SA", none⟩, ⟨"b", some "SB", none⟩]⟩
        ((up (fun _ => true) 5 ⟨some "postgres://u", none⟩
          ⟨some [⟨"a", some "SA", none⟩, ⟨"b", some "SB", none⟩]⟩
          ⟨true, [⟨"a", 1⟩], []⟩).db) =
      ⟨(up (fun _ => true) 5 ⟨some "postgres://u", none⟩
          ⟨some [⟨"a", some "SA", none⟩, ⟨"b", some "SB", none⟩]⟩
          ⟨true, [⟨"a", 1⟩], []⟩).db, .finished,
        [.beginTx, .createMigrationsTable, .selectNames, .commitTx], []⟩ := by
  obtain ⟨h1, h2⟩ := up_ledger_idempotent (fun _ => true) 5
    ⟨some "postgres://u", none⟩
    [⟨"a", some "SA", none⟩, ⟨"b", some "SB", none⟩] ⟨true, [⟨"a", 1⟩], []⟩
    "postgres://u" rfl (by decide) (by decide)
    (by
      intro d hd
      simp only [List.mem_cons, List.not_mem_nil, or_false] at hd
      rcases hd with rfl | rfl
      · exact ⟨"SA", rfl, by decide⟩
      · exact ⟨"SB", rfl, by decide⟩)
  exact ⟨h1 "b", h2⟩

/-- C7: during apply-pending, a pending directory with no readable
`up.sql` is a non-fatal per-item condition: the batch still finishes and
commits, a warning naming the directory is logged, no ledger insert for
that name is ever issued, and the name is absent from the final ledger
(so it stays pending for later runs), while the remaining pending
migrations are processed. -/
theorem up_missing_upsql (sk : String → Bool) (ck : Nat) (env : Env)
    (dirs : List MigrationDir) (db : DBState) (u : String) (d : MigrationDir)
    (hu : envUrl env = some u)
    (hnd : (dirs.map (·.name)).Nodup)
    (hd : d ∈ dirs)
    (hnone : d.up_sql = none)
    (hpend : d.name ∉ ledgerNames db.ledger)
    (hothers : ∀ e ∈ dirs, e.name ∉ ledgerNames db.ledger →
      ∀ raw, e.up_sql = some raw → sk (jsTrim raw) = true) :
    (up sk ck env ⟨some dirs⟩ db).outcome = .finished ∧
    noUpSqlWarning d.name ∈ (up sk ck env ⟨some dirs⟩ db).warnings ∧
    Query.insertName d.name ∉ (up sk ck env ⟨some dirs⟩ db).queries ∧
    d.name ∉ ledgerNames (up sk ck env ⟨some dirs⟩ db).db.ledger := by
  have hok : ∀ n ∈ listMigrations dirs, n ∉ ledgerNames db.ledger →
      ∀ raw, readUpSql dirs n = some raw → sk (jsTrim raw) = true := by
    intro n hn hna raw hr
    obtain ⟨e, hfd, hupd⟩ := Option.bind_eq_some.mp hr
    obtain ⟨hem, hen⟩ := findDir_eq_some dirs n e hfd
    exact hothers e hem (hen ▸ hna) raw hupd
  have hnodup : (pendingOf (ledgerNames db.ledger) (listMigrations dirs)).Nodup :=
    List.Nodup.filter _ ((listMigrations_perm dirs).nodup_iff.mpr hnd)
  have hread : readUpSql dirs d.name = none := by
    rw [readUpSql_of_mem dirs hnd d hd]; exact hnone
  have hdp : d.name ∈ pendingOf (ledgerNames db.ledger) (listMigrations dirs) := by
    refine List.mem_filter.mpr ⟨?_, by simpa using hpend⟩
    exact (listMigrations_perm dirs).mem_iff.mpr (List.mem_map_of_mem _ hd)
  rw [up_success sk ck env dirs db u hu hok hnodup]
  refine ⟨rfl, ?_, ?_, ?_⟩
  · refine List.mem_map.mpr ⟨d.name, ?_, rfl⟩
    exact List.mem_filter.mpr ⟨hdp, by simp [hread]⟩
  · intro hmem
    simp only [List.mem_append, List.mem_cons, List.not_mem_nil] at hmem
    rcases hmem with (h | h) | h
    · rcases h with h | h | h | h <;> simp at h
    · obtain ⟨n, hn, hq⟩ := List.mem_flatMap.mp h
      unfold upQueriesOf at hq
      cases hre : readUpSql dirs n with
      | none => rw [hre] at hq; simp at hq
      | some raw =>
        rw [hre] at hq
        simp only [List.mem_cons, List.not_mem_nil, or_false] at hq
        rcases hq with hq | hq
        · simp at hq
        · have : d.name = n := by simpa using hq
          rw [this] at hread
          rw [hread] at hre
          exact Option.noConfusion hre
    · simp at h
  · intro hmem
    simp only [ledgerNames, List.map_append, List.mem_append, List.map_map] at hmem
    rcases hmem with h | h
    · exact hpend h
    · simp only [List.mem_map, Function.comp] at h
      obtain ⟨n, hn, he⟩ := h
      have hdn : d.name = n := by simpa using he.symm
      have := (List.mem_filter.mp hn).2
      rw [← hdn] at this
      simp [hread] at this

theorem up_missing_upsql_witness :
    let r := up (fun _ => true) 4 ⟨some "postgres://u", none⟩
      ⟨some [⟨"a", none, none⟩, ⟨"b", some "SB", none⟩]⟩ ⟨false, [], []⟩
    r.outcome = .finished ∧
    noUpSqlWarning "a" ∈ r.warnings ∧
    Query.insertName "a" ∉ r.queries ∧
    "a" ∉ ledgerNames r.db.ledger :=
  up_missing_upsql (fun _ => true) 4 ⟨some "postgres://u", none⟩
    [⟨"a", none, none⟩, ⟨"b", some "SB", none⟩] ⟨false, [], []⟩
    "postgres://u" ⟨"a", none, none⟩ rfl (by decide) (by decide) rfl (by decide)
    (by
      intro e he hp raw hup
      simp only [List.mem_cons, List.not_mem_nil, or_false] at he
      rcases he with rfl | rfl
      · exact Option.noConfusion hup
      · rfl)

/-- C3: revert-last targets a ledger entry with maximal `run_on`; it then
opens a transaction, executes the migration's trimmed `down.sql` when it
is present and non-blank (a missing or blank script skips only the SQL
step; the ledger delete still runs), deletes that ledger row and commits;
if the script fails, the whole transaction is rolled back — the SQL
revert and the ledger delete are undone together — and the run is fatal
(exit 1) with the database unchanged. -/
theorem down_revert_last (sk : String → Bool) (ck : Nat) (env : Env)
    (disk : Disk) (db : DBState) (u : String) (e : LedgerEntry)
    (hu : envUrl env = some u)
    (ht : db.migTable = true)
    (he : lastApplied db.ledger = some e) :
    (e ∈ db.ledger ∧ ∀ x ∈ db.ledger, x.run_on ≤ e.run_on) ∧
    (∀ s, (readDownSql (disk.migrationsDir.getD []) e.name).map jsTrim = some s →
      s ≠ "" → sk s = true →
      down sk ck env disk db =
        ⟨⟨db.migTable, db.ledger.filter (·.name ≠ e.name), db.schema ++ [s]⟩,
          .finished,
          [.selectLast, .beginTx, .rawScript s, .deleteName e.name, .commitTx],
          []⟩) ∧
    (∀ s, (readDownSql (disk.migrationsDir.getD []) e.name).map jsTrim = some s →
      s ≠ "" → sk s = false →
      down sk ck env disk db =
        ⟨db, .exited 1, [.selectLast, .beginTx, .rawScript s, .rollbackTx], []⟩) ∧
    ((readDownSql (disk.migrationsDir.getD []) e.name).map jsTrim = some "" →
      down sk ck env disk db =
        ⟨⟨db.migTable, db.ledger.filter (·.name ≠ e.name), db.schema⟩, .finished,
          [.selectLast, .beginTx, .deleteName e.name, .commitTx], []⟩) ∧
    ((readDownSql (disk.migrationsDir.getD []) e.name).map jsTrim = none →
      down sk ck env disk db =
        ⟨⟨db.migTable, db.ledger.filter (·.name ≠ e.name), db.schema⟩, .finished,
          [.selectLast, .beginTx, .deleteName e.name, .commitTx],
          [noDownSqlWarning e.name]⟩) := by
  refine ⟨⟨lastApplied_mem _ _ he, lastApplied_max _ _ he⟩, ?_, ?_, ?_, ?_⟩
  · intro s hs hne hsk
    simp [down, hu, issue, runQuery, curState, setCur, ht, he, hs, hne, hsk, warn]
  · intro s hs hne hsk
    simp [down, hu, issue, runQuery, curState, setCur, ht, he, hs, hne, hsk, warn]
  · intro hs
    simp [down, hu, issue, runQuery, curState, setCur, ht, he, hs, warn]
  · intro hs
    simp [down, hu, issue, runQuery, curState, setCur, ht, he, hs, warn]

theorem down_revert_last_witness :
    down (fun _ => true) 0 ⟨some "postgres://u", none⟩
      ⟨some [⟨"b", none, some "DB"⟩]⟩ ⟨true, [⟨"a", 1⟩, ⟨"b", 2⟩], []⟩ =
      ⟨⟨true, [⟨"a", 1⟩], ["DB"]⟩, .finished,
        [.selectLast, .beginTx, .rawScript "DB", .deleteName "b", .commitTx],
        []⟩ := by
  have h := (down_revert_last (fun _ => true) 0 ⟨some "postgres://u", none⟩
    ⟨some [⟨"b", none, some "DB"⟩]⟩ ⟨true, [⟨"a", 1⟩, ⟨"b", 2⟩], []⟩
    "postgres://u" ⟨"b", 2⟩ rfl rfl (by decide)).2.1 "DB" (by decide) (by decide) rfl
  rw [h]
  decide

/-- C6 counterexample: on apply, a migration whose `up.sql` exists but is
blank after trimming is *not* skipped and gets no warning: the empty body
is passed to the database as a query, a ledger row is inserted for the
migration, and the batch commits — contradicting "the SQL step for that
migration is skipped with a warning". -/
theorem empty_script_executed :
    (up (fun _ => true) 7 ⟨some "postgres://u", none⟩
        ⟨some [⟨"m1", some "   ", none⟩]⟩ ⟨false, [], []⟩).queries =
      [.beginTx, .createMigrationsTable, .selectNames,
        .rawScript "", .insertName "m1", .commitTx] ∧
    (up (fun _ => true) 7 ⟨some "postgres://u", none⟩
        ⟨some [⟨"m1", some "   ", none⟩]⟩ ⟨false, [], []⟩).warnings = [] ∧
    ledgerNames (up (fun _ => true) 7 ⟨some "postgres://u", none⟩
        ⟨some [⟨"m1", some "   ", none⟩]⟩ ⟨false, [], []⟩).db.ledger = ["m1"] := by
  refine ⟨by decide, by decide, by decide⟩

/-- C6 (amended): the two paths treat a blank script differently.  On
apply there is no blank-body check: the blank body is executed as an
empty query, a ledger row is inserted, no warning is logged, and the
batch continues with the remaining migrations.  On revert, a blank
`down.sql` causes the SQL step to be skipped silently (no query and no
warning for it) while the ledger delete still proceeds. -/
theorem empty_script_behavior (sk : String → Bool) (ck : Nat) (env : Env)
    (u : String) (hu : envUrl env = some u) :
    (∀ raw dsql rawB dsqlB sch, jsTrim raw = "" → sk "" = true →
      sk (jsTrim rawB) = true →
      up sk ck env ⟨some [⟨"a", some raw, dsql⟩, ⟨"b", some rawB, dsqlB⟩]⟩
          ⟨false, [], sch⟩ =
        ⟨⟨true, [⟨"a", ck⟩, ⟨"b", ck⟩], sch ++ ["", jsTrim rawB]⟩, .finished,
          [.beginTx, .createMigrationsTable, .selectNames,
            .rawScript "", .insertName "a",
            .rawScript (jsTrim rawB), .insertName "b", .commitTx],
          []⟩) ∧
    (∀ (disk : Disk) (db : DBState) (e : LedgerEntry), db.migTable = true →
      lastApplied db.ledger = some e →
      (readDownSql (disk.migrationsDir.getD []) e.name).map jsTrim = some "" →
      down sk ck env disk db =
        ⟨⟨db.migTable, db.ledger.filter (·.name ≠ e.name), db.schema⟩, .finished,
          [.selectLast, .beginTx, .deleteName e.name, .commitTx], []⟩) := by
  constructor
  · intro raw dsql rawB dsqlB sch hraw hsk0 hskB
    have hsort : List.insertionSort localeLe ["a", "b"] = ["a", "b"] := by decide
    simp [up, hu, issue, runQuery, curState, setCur, listMigrations, hsort,
      applyLoop, readUpSql, findDir, hraw, hsk0, hskB, ledgerNames, warn]
  · intro disk db e ht he hs
    simp [down, hu, issue, runQuery, curState, setCur, ht, he, hs, warn]

theorem empty_script_behavior_witness :
    up (fun _ => true) 2 ⟨some "postgres://u", none⟩
        ⟨some [⟨"a", some " ", none⟩, ⟨"b", some "X", none⟩]⟩ ⟨false, [], []⟩ =
      ⟨⟨true, [⟨"a", 2⟩, ⟨"b", 2⟩], ["", "X"]⟩, .finished,
        [.beginTx, .createMigrationsTable, .selectNames,
          .rawScript "", .insertName "a", .rawScript "X", .insertName "b",
          .commitTx], []⟩ ∧
    down (fun _ => true) 2 ⟨some "postgres://u", none⟩
        ⟨some [⟨"c", none, some "  "⟩]⟩ ⟨true, [⟨"c", 3⟩], []⟩ =
      ⟨⟨true, [], []⟩, .finished,
        [.selectLast, .beginTx, .deleteName "c", .commitTx], []⟩ := by
  obtain ⟨hA, hB⟩ := empty_script_behavior (fun _ => true) 2
    ⟨some "postgres://u", none⟩ "postgres://u" rfl
  constructor
  · have h := hA " " none "X" none [] (by decide) rfl rfl
    rw [h]
    decide
  · have h := hB ⟨some [⟨"c", none, some "  "⟩]⟩ ⟨true, [⟨"c", 3⟩], []⟩ ⟨"c", 3⟩
      rfl rfl (by decide)
    rw [h]
    decide

/-- C5 counterexample: the reader sorts with JavaScript `localeCompare`
(locale-aware collation), not plain text comparison; on the arbitrary
names "B" and "a" the two orders differ: the reader lists ["a", "B"]
while the lexicographic text sort is ["B", "a"]. -/
theorem reader_order_not_text_order :
    listMigrations [⟨"B", none, none⟩, ⟨"a", none, none⟩] = ["a", "B"] ∧
    specTextSort ["B", "a"] = ["B", "a"] ∧
    listMigrations [⟨"B", none, none⟩, ⟨"a", none, none⟩] ≠
      specTextSort ["B", "a"] := by
  refine ⟨by decide, by decide, by decide⟩

/-- C5 (amended): for every list of migration directories, the reader's
listing — and hence apply-pending's execution order — is a permutation of
the directory names sorted ascending by the `localeCompare` collation
(the order `localeLe`); this coincides with the lexicographic text sort
on the conventional timestamp-prefixed names but not on arbitrary names. -/
theorem reader_order_locale_sorted (dirs : List MigrationDir) :
    List.Perm (listMigrations dirs) (dirs.map (·.name)) ∧
    (listMigrations dirs).Sorted localeLe :=
  ⟨listMigrations_perm dirs, listMigrations_sorted dirs⟩

end Rove
